import Mathlib

/-!
# React_withAT: the memoizing closure `sum2`, the todo slice and the theme context

A shallow embedding of

* `react-projects/usememo-optimization-project1/src/App.js` (`sum2`, `memoizedSum`),
* `react-projects/reduxTodo-project2/src/features/todo/todoSlice.js`
  (`initialState`, `addTodo`, `removeTodo`),
* `code-examples/useContext.js` (`ThemingExample`, `ThemedComponent`, `ThemeToggle`).

Numbers are exact integers.  The embedding of `sum2` is the code on safe integers, those of
absolute value at most `2 ^ 53 - 1`: there the addition of two numbers with a safe sum is exact
and a template literal prints every digit.  The theorems that state the value a call returns
or stores, or that the keys of different pairs differ, carry that range as a hypothesis.
A JavaScript object used as a dictionary is the list of its own properties in insertion
order.
-/

namespace ReactWithAT

/-! ## `App.js`: `sum2` -/

/-- The string a template literal produces for a safe integer: the decimal digits, after a
minus sign when the number is negative.  Beyond the safe integers JavaScript prints the
shortest digits that read back as the same number, with an exponent from `10 ^ 21` on, and
this definition is not the code there. -/
def numberToString (a : Int) : String :=
  if a < 0 then "-" ++ Nat.repr a.natAbs else Nat.repr a.natAbs

/-- The template literal `${a},${b}` of `App.js` lines 22, 24 and 26, for safe integers `a`
and `b`. -/
def key (a b : Int) : String :=
  numberToString a ++ "," ++ numberToString b

/-- The object `obj` of `sum2`: its own properties, oldest first.  No property of
`Object.prototype` has a comma in its name, so a lookup of a key `${a},${b}` only ever sees
own properties. -/
abbrev Obj := List (String × Int)

/-- The property read `obj[k]`; `none` is `undefined`. -/
def Obj.get : Obj → String → Option Int
  | [], _ => none
  | (k', v) :: rest, k => if k' = k then some v else Obj.get rest k

/-- The property write `obj[k] = v`: an own property keeps its place and takes the new value,
a new property goes to the end. -/
def Obj.set : Obj → String → Int → Obj
  | [], k, v => [(k, v)]
  | (k', v') :: rest, k, v => if k' = k then (k', v) :: rest else (k', v') :: Obj.set rest k v

/-- ToBoolean on what a property read of `obj` yields: `undefined` and `0` are falsy, every
other integer is truthy. -/
def truthy : Option Int → Bool
  | none => false
  | some v => v != 0

/-- The closure `sum2()` returns, with the state it closes over: `obj`, and `insideIf`, the
number of times the body of the `if` (the line `console.log('inside if')` and the addition
after it) has run. -/
structure Memo where
  obj : Obj
  insideIf : Nat
  deriving DecidableEq, Repr

/-- The call `sum2()`: a closure over the fresh object `{}`. -/
def sum2 : Memo := { obj := [], insideIf := 0 }

/-- Whether the guard `!obj[key]` of line 22 holds, i.e. the call enters the `if`. -/
def Memo.entersIf (m : Memo) (a b : Int) : Bool :=
  !truthy (m.obj.get (key a b))

/-- The state after one call of the closure with `(a, b)` (lines 22 to 25).  The sum `a + b`
of line 24 is the exact one, which is what JavaScript computes when `a`, `b` and `a + b` are
safe integers. -/
def Memo.next (m : Memo) (a b : Int) : Memo :=
  if m.entersIf a b then
    { obj := m.obj.set (key a b) (a + b), insideIf := m.insideIf + 1 }
  else m

/-- One call of the closure with `(a, b)`: the value returned by line 26, read from the object
as it is after the `if`, and the state after the call. -/
def Memo.call (m : Memo) (a b : Int) : Option Int × Memo :=
  ((m.next a b).obj.get (key a b), m.next a b)

/-- The state after a sequence of calls, first call first. -/
def Memo.run (m : Memo) : List (Int × Int) → Memo
  | [] => m
  | (a, b) :: rest => Memo.run (m.next a b) rest

/-- The values a sequence of calls returns, first call first. -/
def Memo.outputs (m : Memo) : List (Int × Int) → List (Option Int)
  | [] => []
  | (a, b) :: rest => (m.call a b).1 :: Memo.outputs (m.next a b) rest

/-- The wrapper of line 30. -/
def memoizedSum : Memo := sum2

/-- The constant `Number.MAX_SAFE_INTEGER`, `2 ^ 53 - 1`. -/
def MAX_SAFE_INTEGER : Int := 9007199254740991

/-- The test `Number.isSafeInteger(x)` on an integer `x`. -/
abbrev isSafeInteger (x : Int) : Prop :=
  -MAX_SAFE_INTEGER ≤ x ∧ x ≤ MAX_SAFE_INTEGER

/-- A call `(a, b)` whose arguments and whose sum are safe integers: the calls on which
`Memo.next` and `key` are the code of `App.js`. -/
abbrev SafeCall (p : Int × Int) : Prop :=
  isSafeInteger p.1 ∧ isSafeInteger p.2 ∧ isSafeInteger (p.1 + p.2)

/-- The number a run of decimal digit characters denotes, most significant digit first. -/
def decimalValue (cs : List Char) : Nat :=
  cs.foldl (fun acc c => acc * 10 + (c.toNat - 48)) 0

/-! ## `todoSlice.js` -/

/-- The primitive JavaScript values a todo's fields and an action's payload hold. -/
inductive JsVal where
  | undefined
  | null
  | boolean (b : Bool)
  | number (n : Int)
  | string (s : String)
  deriving DecidableEq, Repr

/-- The comparison `x === y` on primitives: the operands have the same type and the same
value. -/
def strictEq : JsVal → JsVal → Bool
  | .undefined, .undefined => true
  | .null, .null => true
  | .boolean a, .boolean b => a == b
  | .number a, .number b => a == b
  | .string a, .string b => a == b
  | _, _ => false

/-- The comparison `x !== y`. -/
def strictNe (x y : JsVal) : Bool := !strictEq x y

/-- A record `{id, text}` of the list `todos`. -/
structure Todo where
  id : JsVal
  text : JsVal
  deriving DecidableEq, Repr

/-- The state of the slice: an object whose one property is `todos`. -/
structure TodoState where
  todos : List Todo
  deriving DecidableEq, Repr

/-- An action as a case reducer reads it: its `payload`. -/
structure Action where
  payload : JsVal
  deriving DecidableEq, Repr

/-- The `initialState` of lines 3 to 5. -/
def initialState : TodoState :=
  { todos := [{ id := .number 1, text := .string "Hello World" }] }

/-- `Array.prototype.filter`: the elements the callback accepts, by ascending index. -/
def arrayFilter {α : Type} (callback : α → Bool) : List α → List α
  | [] => []
  | x :: rest => if callback x then x :: arrayFilter callback rest else arrayFilter callback rest

/-- `Array.prototype.push` with one argument, on the draft: the element goes to the end. -/
def arrayPush {α : Type} (xs : List α) (x : α) : List α := xs ++ [x]

/-- The case reducer `addTodo` (lines 43 to 49).  `nanoid` is the string the call `nanoid()`
of line 45 returns. -/
def addTodo (nanoid : String) (state : TodoState) (action : Action) : TodoState :=
  let todo : Todo := { id := .string nanoid, text := action.payload }
  { state with todos := arrayPush state.todos todo }

/-- The case reducer `removeTodo` (lines 50 to 52). -/
def removeTodo (state : TodoState) (action : Action) : TodoState :=
  { state with todos := arrayFilter (fun todo => strictNe todo.id action.payload) state.todos }

/-! ## `useContext.js` -/

/-- The state of `ThemingExample`: what `useState('light')` holds. -/
structure ThemingState where
  theme : String
  deriving DecidableEq, Repr

/-- The state of `ThemingExample` at its first render (line 6). -/
def ThemingState.initial : ThemingState := { theme := "light" }

/-- The object `{ theme, setTheme }` of line 9.  `setTheme` takes an updater and gives the
state of `ThemingExample` after it. -/
structure ContextValue where
  theme : String
  setTheme : (String → String) → ThemingState

/-- The `value` that `ThemingExample` hands to `ThemeContext.Provider` when its state is `s`,
which is what `useContext(ThemeContext)` returns in both children. -/
def useContext (s : ThemingState) : ContextValue :=
  { theme := s.theme, setTheme := fun updater => { theme := updater s.theme } }

/-- The values on the left of `=== 'dark'` and `=== 'light'`: a string or the context
object. -/
inductive ThemeJs where
  | string (s : String)
  | object (o : ContextValue)

/-- The comparison `x === s` with a string `s`: `x` is a string with the same characters.  An
object is never strictly equal to a string. -/
def strictEqString : ThemeJs → String → Bool
  | .string t, s => t == s
  | .object _, _ => false

/-- The colour `ThemedComponent` renders its text with (lines 17 and 19): the constant
`theme` is bound to what `useContext` returns, and that is compared with `'dark'`. -/
def ThemedComponent (s : ThemingState) : String :=
  let theme := useContext s
  if strictEqString (.object theme) "dark" then "white" else "black"

/-- The state after a click on the button of `ThemeToggle` (lines 23 and 26). -/
def ThemeToggle.onClick (s : ThemingState) : ThemingState :=
  let setTheme := (useContext s).setTheme
  setTheme (fun prevTheme => if strictEqString (.string prevTheme) "light" then "dark" else "light")

/-! ### The decimal rendering and the key -/

theorem digitChar_isDigit {d : Nat} (hd : d < 10) :
    (Nat.digitChar d).isDigit = true ∧ (Nat.digitChar d).toNat - 48 = d := by
  interval_cases d <;> decide

theorem decimalValue_snoc (cs : List Char) (c : Char) :
    decimalValue (cs ++ [c]) = decimalValue cs * 10 + (c.toNat - 48) := by
  simp [decimalValue, List.foldl_append]

/-- With fuel above `n`, what `Nat.toDigitsCore 10` puts in front of its accumulator is a run
of digit characters that denotes `n` and does not depend on the accumulator. -/
theorem toDigitsCore_decimal (fuel n : Nat) (hn : n < fuel) :
    ∃ ds : List Char, (∀ c ∈ ds, c.isDigit = true) ∧ decimalValue ds = n ∧
      ∀ acc, Nat.toDigitsCore 10 fuel n acc = ds ++ acc := by
  induction fuel generalizing n with
  | zero => omega
  | succ fuel ih =>
    have hd := digitChar_isDigit (Nat.mod_lt n (by decide : 10 > 0))
    by_cases h0 : n / 10 = 0
    · refine ⟨[Nat.digitChar (n % 10)], ?_, ?_, ?_⟩
      · intro c hc
        rw [List.mem_singleton] at hc
        rw [hc]; exact hd.1
      · have := decimalValue_snoc [] (Nat.digitChar (n % 10))
        simp only [List.nil_append] at this
        rw [this, hd.2]
        simp [decimalValue]
        omega
      · intro acc
        simp [Nat.toDigitsCore, h0]
    · obtain ⟨ds, hdig, hval, hds⟩ := ih (n / 10) (by omega)
      refine ⟨ds ++ [Nat.digitChar (n % 10)], ?_, ?_, ?_⟩
      · intro c hc
        rcases List.mem_append.1 hc with hc | hc
        · exact hdig c hc
        · rw [List.mem_singleton] at hc
          rw [hc]; exact hd.1
      · rw [decimalValue_snoc, hval, hd.2]
        omega
      · intro acc
        simp [Nat.toDigitsCore, h0, hds]

/-- The characters of `Nat.repr n` are digits, and they denote `n`. -/
theorem repr_decimal (n : Nat) :
    (∀ c ∈ (Nat.repr n).data, c.isDigit = true) ∧ decimalValue (Nat.repr n).data = n := by
  obtain ⟨ds, hdig, hval, hds⟩ := toDigitsCore_decimal (n + 1) n (Nat.lt_succ_self n)
  have h : (Nat.repr n).data = ds := by
    simp [Nat.repr, Nat.toDigits, hds, List.asString]
  rw [h]
  exact ⟨hdig, hval⟩

theorem repr_injective {n m : Nat} (h : Nat.repr n = Nat.repr m) : n = m := by
  rw [← (repr_decimal n).2, ← (repr_decimal m).2, h]

theorem numberToString_data (a : Int) :
    (numberToString a).data =
      if a < 0 then '-' :: (Nat.repr a.natAbs).data else (Nat.repr a.natAbs).data := by
  unfold numberToString
  split <;> simp

/-- No comma occurs in the rendering of a number. -/
theorem comma_not_mem_numberToString (a : Int) : ',' ∉ (numberToString a).data := by
  have hdig := (repr_decimal a.natAbs).1
  have hc : ∀ c ∈ (Nat.repr a.natAbs).data, c ≠ ',' := by
    intro c hc h
    have := hdig c hc
    rw [h] at this
    exact absurd this (by decide)
  rw [numberToString_data]
  split
  · intro h
    rcases List.mem_cons.1 h with h | h
    · exact absurd h (by decide)
    · exact hc _ h rfl
  · intro h
    exact hc _ h rfl

theorem numberToString_injective {a b : Int} (h : numberToString a = numberToString b) :
    a = b := by
  have hd : (numberToString a).data = (numberToString b).data := by rw [h]
  rw [numberToString_data, numberToString_data] at hd
  have hhead : ∀ n : Nat, ∀ l, (Nat.repr n).data ≠ '-' :: l := by
    intro n l hl
    have := (repr_decimal n).1 '-' (by rw [hl]; exact List.mem_cons_self _ _)
    exact absurd this (by decide)
  by_cases ha : a < 0 <;> by_cases hb : b < 0 <;> simp only [ha, hb, if_true, if_false] at hd
  · have := repr_injective (String.ext (List.cons.inj hd).2)
    omega
  · exact absurd hd.symm (hhead _ _)
  · exact absurd hd (hhead _ _)
  · have := repr_injective (String.ext hd)
    omega

theorem key_data (a b : Int) :
    (key a b).data = (numberToString a).data ++ ',' :: (numberToString b).data := by
  simp [key]

/-- Two lists cut at their first comma agree piecewise when they agree as a whole. -/
theorem split_at_comma :
    ∀ (l₁ l₂ r₁ r₂ : List Char), ',' ∉ l₁ → ',' ∉ l₂ →
      l₁ ++ ',' :: r₁ = l₂ ++ ',' :: r₂ → l₁ = l₂ ∧ r₁ = r₂
  | [], [], _, _, _, _, h => ⟨rfl, by simpa using h⟩
  | [], c :: l₂, _, _, _, h₂, h => by
    simp only [List.nil_append, List.cons_append, List.cons.injEq] at h
    exact absurd (h.1 ▸ List.mem_cons_self _ _) h₂
  | c :: l₁, [], _, _, h₁, _, h => by
    simp only [List.nil_append, List.cons_append, List.cons.injEq] at h
    exact absurd (h.1 ▸ List.mem_cons_self _ _) h₁
  | c :: l₁, d :: l₂, r₁, r₂, h₁, h₂, h => by
    simp only [List.cons_append, List.cons.injEq] at h
    have ih := split_at_comma l₁ l₂ r₁ r₂ (fun hm => h₁ (List.mem_cons_of_mem _ hm))
      (fun hm => h₂ (List.mem_cons_of_mem _ hm)) h.2
    exact ⟨by rw [h.1, ih.1], ih.2⟩

/-- The key determines the ordered pair of arguments. -/
theorem key_injective {a b c d : Int} (h : key a b = key c d) : a = c ∧ b = d := by
  have hd : (key a b).data = (key c d).data := by rw [h]
  rw [key_data, key_data] at hd
  have := split_at_comma _ _ _ _ (comma_not_mem_numberToString a)
    (comma_not_mem_numberToString c) hd
  exact ⟨numberToString_injective (String.ext this.1), numberToString_injective (String.ext this.2)⟩

/-! ### Reads and writes of `obj` -/

theorem Obj.get_set_self (o : Obj) (k : String) (v : Int) : (o.set k v).get k = some v := by
  induction o with
  | nil => simp [Obj.set, Obj.get]
  | cons e rest ih =>
    obtain ⟨k', v'⟩ := e
    by_cases h : k' = k
    · simp [Obj.set, Obj.get, h]
    · simp [Obj.set, Obj.get, h, ih]

theorem Obj.get_set_ne (o : Obj) {k k' : String} (v : Int) (h : k' ≠ k) :
    (o.set k v).get k' = o.get k' := by
  induction o with
  | nil => simp [Obj.set, Obj.get, Ne.symm h]
  | cons e rest ih =>
    obtain ⟨k₀, v₀⟩ := e
    by_cases h₀ : k₀ = k
    · have : k₀ ≠ k' := fun hk => h (hk ▸ h₀)
      simp [Obj.set, Obj.get, h₀, this, Ne.symm h]
    · by_cases h₁ : k₀ = k'
      · subst h₁
        simp [Obj.set, Obj.get, h₀]
      · simp [Obj.set, Obj.get, h₀, h₁, ih]

/-- A write under an absent key appends one property. -/
theorem Obj.set_of_get_none (o : Obj) {k : String} (v : Int) (h : o.get k = none) :
    o.set k v = o ++ [(k, v)] := by
  induction o with
  | nil => rfl
  | cons e rest ih =>
    obtain ⟨k₀, v₀⟩ := e
    by_cases h₀ : k₀ = k
    · simp [Obj.get, h₀] at h
    · simp only [Obj.get, h₀, if_false] at h
      simp [Obj.set, h₀, ih h]

/-- A write of the value already stored changes nothing. -/
theorem Obj.set_of_get_some (o : Obj) {k : String} {v : Int} (h : o.get k = some v) :
    o.set k v = o := by
  induction o with
  | nil => simp [Obj.get] at h
  | cons e rest ih =>
    obtain ⟨k₀, v₀⟩ := e
    by_cases h₀ : k₀ = k
    · simp only [Obj.get, h₀, if_true, Option.some.injEq] at h
      simp [Obj.set, h₀, h]
    · simp only [Obj.get, h₀, if_false] at h
      simp [Obj.set, h₀, ih h]

theorem Obj.mem_of_get {o : Obj} {k : String} {v : Int} (h : o.get k = some v) :
    (k, v) ∈ o := by
  induction o with
  | nil => simp [Obj.get] at h
  | cons e rest ih =>
    obtain ⟨k₀, v₀⟩ := e
    by_cases h₀ : k₀ = k
    · simp only [Obj.get, h₀, if_true, Option.some.injEq] at h
      simp [h₀, h]
    · simp only [Obj.get, h₀, if_false] at h
      exact List.mem_cons_of_mem _ (ih h)

theorem Obj.mem_set {o : Obj} {k : String} {v : Int} {e : String × Int} (h : e ∈ o.set k v) :
    e ∈ o ∨ e = (k, v) := by
  induction o with
  | nil => right; simpa [Obj.set] using h
  | cons e₀ rest ih =>
    obtain ⟨k₀, v₀⟩ := e₀
    by_cases h₀ : k₀ = k
    · simp only [Obj.set, h₀, if_true, List.mem_cons] at h
      rcases h with h | h
      · right; exact h
      · left; exact List.mem_cons_of_mem _ h
    · simp only [Obj.set, h₀, if_false, List.mem_cons] at h
      rcases h with h | h
      · left; rw [h]; exact List.mem_cons_self _ _
      · rcases ih h with h | h
        · left; exact List.mem_cons_of_mem _ h
        · right; exact h

/-- The property names of a written object: the old ones, and the written one at the end
when it is new. -/
theorem Obj.keys_set (o : Obj) (k : String) (v : Int) :
    (o.set k v).map Prod.fst =
      if k ∈ o.map Prod.fst then o.map Prod.fst else o.map Prod.fst ++ [k] := by
  induction o with
  | nil => simp [Obj.set]
  | cons e rest ih =>
    obtain ⟨k₀, v₀⟩ := e
    by_cases h₀ : k₀ = k
    · simp [Obj.set, h₀]
    · have h₁ : ¬ k = k₀ := fun h => h₀ h.symm
      simp only [Obj.set, h₀, if_false, List.map_cons, ih, List.mem_cons, h₁, false_or]
      split <;> simp

/-! ### The states a wrapper goes through -/

theorem Memo.mem_next {m : Memo} {a b : Int} {e : String × Int} (h : e ∈ (m.next a b).obj) :
    e ∈ m.obj ∨ e = (key a b, a + b) := by
  unfold Memo.next at h
  split at h
  · exact Obj.mem_set h
  · exact Or.inl h

/-- Every property of the object after a run was there before it or was written by one of the
calls of the run. -/
theorem Memo.mem_run {calls : List (Int × Int)} {m : Memo} {e : String × Int}
    (h : e ∈ (m.run calls).obj) :
    e ∈ m.obj ∨ ∃ p ∈ calls, e = (key p.1 p.2, p.1 + p.2) := by
  induction calls generalizing m with
  | nil => exact Or.inl h
  | cons p rest ih =>
    obtain ⟨a, b⟩ := p
    rcases ih (m := m.next a b) h with h | ⟨q, hq, he⟩
    · rcases Memo.mem_next h with h | h
      · exact Or.inl h
      · exact Or.inr ⟨(a, b), List.mem_cons_self _ _, h⟩
    · exact Or.inr ⟨q, List.mem_cons_of_mem _ hq, he⟩

/-- Every property of a wrapper that started fresh was written by one of its calls. -/
theorem mem_run_sum2 {calls : List (Int × Int)} {e : String × Int}
    (h : e ∈ (sum2.run calls).obj) : ∃ p ∈ calls, e = (key p.1 p.2, p.1 + p.2) := by
  rcases Memo.mem_run h with h | h
  · simp [sum2] at h
  · exact h

/-- In a wrapper that started fresh, what is stored under the key of `(a, b)` is `a + b`. -/
theorem get_run_sum2 {calls : List (Int × Int)} {a b v : Int}
    (h : (sum2.run calls).obj.get (key a b) = some v) : v = a + b := by
  obtain ⟨p, _, hp⟩ := mem_run_sum2 (Obj.mem_of_get h)
  simp only [Prod.mk.injEq] at hp
  obtain ⟨h₁, h₂⟩ := key_injective hp.1
  rw [hp.2, h₁, h₂]

theorem truthy_eq_false_iff (r : Option Int) : truthy r = false ↔ r = none ∨ r = some 0 := by
  cases r with
  | none => simp [truthy]
  | some v => simp [truthy]

/-- The object after a call under a key that is already present, in a wrapper that started
fresh: unchanged, through the `if` or past it. -/
theorem next_obj_of_present {calls : List (Int × Int)} {a b : Int}
    (h : (sum2.run calls).obj.get (key a b) ≠ none) :
    ((sum2.run calls).next a b).obj = (sum2.run calls).obj := by
  unfold Memo.next
  split
  · obtain ⟨v, hv⟩ := Option.ne_none_iff_exists'.1 h
    have hsum := get_run_sum2 hv
    rw [hsum] at hv
    exact Obj.set_of_get_some _ hv
  · rfl

/-- The object after a call under an absent key: one property more, at the end. -/
theorem Memo.next_obj_of_absent {m : Memo} {a b : Int} (h : m.obj.get (key a b) = none) :
    (m.next a b).obj = m.obj ++ [(key a b, a + b)] ∧ (m.next a b).insideIf = m.insideIf + 1 := by
  have : m.entersIf a b = true := by simp [Memo.entersIf, h, truthy]
  simp [Memo.next, this, Obj.set_of_get_none _ _ h]

/-- After a call with `(a, b)` the key of `(a, b)` holds `a + b`, in a wrapper that started
fresh. -/
theorem get_next_self (calls : List (Int × Int)) (a b : Int) :
    ((sum2.run calls).next a b).obj.get (key a b) = some (a + b) := by
  by_cases h : (sum2.run calls).entersIf a b = true
  · simp [Memo.next, h, Obj.get_set_self]
  · have ht : truthy ((sum2.run calls).obj.get (key a b)) = true := by
      simpa [Memo.entersIf] using h
    cases hg : (sum2.run calls).obj.get (key a b) with
    | none => simp [hg, truthy] at ht
    | some v =>
      have := get_run_sum2 hg
      simp [Memo.next, h, hg, this]

/-- The second of two consecutive calls with `(a, b)` enters the `if` exactly when
`a + b = 0`. -/
theorem second_call_entersIf_iff (calls : List (Int × Int)) (a b : Int) :
    ((sum2.run calls).next a b).entersIf a b = true ↔ a + b = 0 := by
  simp [Memo.entersIf, get_next_self, truthy]

theorem run_three_four (k : Nat) :
    (Memo.mk [(key 3 4, 7)] 1).run (List.replicate k (3, 4)) = Memo.mk [(key 3 4, 7)] 1 ∧
      (Memo.mk [(key 3 4, 7)] 1).outputs (List.replicate k (3, 4)) =
        List.replicate k (some 7) := by
  have hstep : (Memo.mk [(key 3 4, 7)] 1).next 3 4 = Memo.mk [(key 3 4, 7)] 1 := by decide
  have hout : ((Memo.mk [(key 3 4, 7)] 1).call 3 4).1 = some 7 := by decide
  induction k with
  | zero => exact ⟨rfl, rfl⟩
  | succ k ih =>
    simp only [List.replicate_succ, Memo.run, Memo.outputs, hstep, hout, ih, and_self]

/-! ### The claims on `sum2` -/

/-- C1: in every state a wrapper reaches from `sum2()` by a finite sequence of calls on safe
integers with safe sums, a call with such a pair `(a, b)` returns `a + b`, whether or not it
enters the `if`. -/
theorem call_returns_sum (calls : List (Int × Int)) (a b : Int)
    (_hcalls : ∀ p ∈ calls, SafeCall p) (_hab : SafeCall (a, b)) :
    ((sum2.run calls).call a b).1 = some (a + b) := by
  simp [Memo.call, get_next_self]

theorem call_returns_sum_hit_and_miss :
    (∀ p ∈ [((3 : Int), (4 : Int)), (-1, 1)], SafeCall p) ∧ SafeCall (-1, 1) ∧
      ((sum2.run [(3, 4), (-1, 1)]).call (-1) 1).1 = some 0 :=
  ⟨by decide, by decide, call_returns_sum [(3, 4), (-1, 1)] (-1) 1 (by decide) (by decide)⟩

/-- C2, at the failing input: on a fresh wrapper the first call with `(0, 0)` stores `0`, and
the second consecutive call with `(0, 0)` enters the `if` again and performs the addition a
second time. -/
theorem second_call_zero_recomputes :
    (sum2.next 0 0).obj.get (key 0 0) = some 0 ∧ (sum2.next 0 0).insideIf = 1 ∧
      (sum2.next 0 0).entersIf 0 0 = true ∧ ((sum2.next 0 0).call 0 0).2.insideIf = 2 := by
  decide

/-- C3: on safe integers the key is injective on ordered pairs; in a wrapper that has only
been called on safe integers with safe sums, the first call with such a pair it has not been
called with finds the key absent, enters the `if` and performs an addition; for `a ≠ b` the
calls `(a, b)` then `(b, a)` on a fresh wrapper perform two additions and both return
`a + b`; so do `(2, 3)` then `(3, 2)`, both returning `5`. -/
theorem key_order_sensitive :
    (∀ a b c d : Int, isSafeInteger a → isSafeInteger b → isSafeInteger c → isSafeInteger d →
      (a, b) ≠ (c, d) → key a b ≠ key c d) ∧
    (∀ (calls : List (Int × Int)) (a b : Int), (∀ p ∈ calls, SafeCall p) → SafeCall (a, b) →
      (a, b) ∉ calls →
      (sum2.run calls).obj.get (key a b) = none ∧ (sum2.run calls).entersIf a b = true ∧
        ((sum2.run calls).call a b).2.insideIf = (sum2.run calls).insideIf + 1) ∧
    (∀ a b : Int, SafeCall (a, b) → a ≠ b →
      (sum2.next a b).entersIf b a = true ∧ (sum2.run [(a, b), (b, a)]).insideIf = 2 ∧
        sum2.outputs [(a, b), (b, a)] = [some (a + b), some (a + b)]) ∧
    SafeCall (2, 3) ∧ SafeCall (3, 2) ∧
    (sum2.run [(2, 3), (3, 2)]).insideIf = 2 ∧
    sum2.outputs [(2, 3), (3, 2)] = [some 5, some 5] := by
  have hinj : ∀ a b c d : Int, (a, b) ≠ (c, d) → key a b ≠ key c d := by
    intro a b c d hne hk
    obtain ⟨h₁, h₂⟩ := key_injective hk
    exact hne (by rw [h₁, h₂])
  have hfirst : ∀ (calls : List (Int × Int)) (a b : Int), (a, b) ∉ calls →
      (sum2.run calls).obj.get (key a b) = none := by
    intro calls a b hnot
    by_contra hg
    obtain ⟨v, hv⟩ := Option.ne_none_iff_exists'.1 hg
    obtain ⟨p, hp, he⟩ := mem_run_sum2 (Obj.mem_of_get hv)
    simp only [Prod.mk.injEq] at he
    obtain ⟨h₁, h₂⟩ := key_injective he.1
    exact hnot (by rw [h₁, h₂]; exact hp)
  refine ⟨fun a b c d _ _ _ _ => hinj a b c d, ?_, ?_, by decide, by decide, by decide,
    by decide⟩
  · intro calls a b _ _ hnot
    have hg := hfirst calls a b hnot
    refine ⟨hg, by simp [Memo.entersIf, hg, truthy], ?_⟩
    exact (Memo.next_obj_of_absent hg).2
  · intro a b _ hab
    have hg : (sum2.run [(a, b)]).obj.get (key b a) = none :=
      hfirst [(a, b)] b a (by simp [hab, Ne.symm hab])
    have h₁ : (sum2.next a b).insideIf = 1 :=
      (Memo.next_obj_of_absent (m := sum2) (by simp [sum2, Obj.get])).2
    have h₂ := (Memo.next_obj_of_absent hg).2
    have o₁ := get_next_self [] a b
    have o₂ := get_next_self [(a, b)] b a
    simp only [Memo.run] at hg h₂ o₁ o₂
    refine ⟨by simp [Memo.entersIf, hg, truthy], ?_, ?_⟩
    · simp [Memo.run, h₂, h₁]
    · simp [Memo.outputs, Memo.call, o₁, o₂, add_comm]

theorem key_order_sensitive_largest :
    SafeCall (MAX_SAFE_INTEGER, -1) ∧ MAX_SAFE_INTEGER ≠ -1 ∧
      (sum2.run [(MAX_SAFE_INTEGER, -1), (-1, MAX_SAFE_INTEGER)]).insideIf = 2 ∧
      sum2.outputs [(MAX_SAFE_INTEGER, -1), (-1, MAX_SAFE_INTEGER)] =
        [some (MAX_SAFE_INTEGER + -1), some (MAX_SAFE_INTEGER + -1)] :=
  ⟨by decide, by decide,
    (key_order_sensitive.2.2.1 MAX_SAFE_INTEGER (-1) (by decide) (by decide)).2⟩

/-- C4: in every state a wrapper reaches from `sum2()` by calls on safe integers with safe
sums, the property names of `obj` are pairwise distinct, every property, whether found by a
read or by enumeration, is the key of a pair `(a, b)` of one of those calls and holds
`a + b`, a safe integer, and a further such call leaves the value under every key that was
present before it as it was. -/
theorem cache_invariant (calls : List (Int × Int)) (hcalls : ∀ p ∈ calls, SafeCall p) :
    ((sum2.run calls).obj.map Prod.fst).Nodup ∧
    (∀ k v, (sum2.run calls).obj.get k = some v →
      ∃ a b : Int, (a, b) ∈ calls ∧ SafeCall (a, b) ∧ k = key a b ∧ v = a + b) ∧
    (∀ k v, (k, v) ∈ (sum2.run calls).obj →
      ∃ a b : Int, (a, b) ∈ calls ∧ SafeCall (a, b) ∧ k = key a b ∧ v = a + b) ∧
    (∀ (a b : Int) k v, SafeCall (a, b) → (sum2.run calls).obj.get k = some v →
      ((sum2.run calls).call a b).2.obj.get k = some v) := by
  have hmem : ∀ k v, (k, v) ∈ (sum2.run calls).obj →
      ∃ a b : Int, (a, b) ∈ calls ∧ SafeCall (a, b) ∧ k = key a b ∧ v = a + b := by
    intro k v h
    obtain ⟨p, hp, he⟩ := mem_run_sum2 h
    simp only [Prod.mk.injEq] at he
    exact ⟨p.1, p.2, hp, hcalls p hp, he.1, he.2⟩
  refine ⟨?_, fun k v h => hmem k v (Obj.mem_of_get h), hmem, ?_⟩
  · have hgen : ∀ (cs : List (Int × Int)) (m : Memo), (m.obj.map Prod.fst).Nodup →
        ((m.run cs).obj.map Prod.fst).Nodup := by
      intro cs
      induction cs with
      | nil => intro m h; exact h
      | cons p rest ih =>
        intro m h
        obtain ⟨a, b⟩ := p
        apply ih
        unfold Memo.next
        split
        · simp only [Obj.keys_set]
          split
          · exact h
          · rename_i hk
            exact List.Nodup.append h (List.nodup_singleton _) (by simpa using hk)
        · exact h
    exact hgen calls sum2 (by simp [sum2])
  · intro a b k v _ h
    by_cases hk : k = key a b
    · subst hk
      have := get_run_sum2 h
      simp [Memo.call, get_next_self, this]
    · simp only [Memo.call, Memo.next]
      split
      · rw [Obj.get_set_ne _ _ hk]; exact h
      · exact h

theorem cache_invariant_three_calls :
    (∀ p ∈ [((3 : Int), (4 : Int)), (0, 0), (3, 4)], SafeCall p) ∧
      (sum2.run [(3, 4), (0, 0), (3, 4)]).obj = [(key 3 4, 7), (key 0 0, 0)] ∧
      ((sum2.run [(3, 4), (0, 0), (3, 4)]).obj.map Prod.fst).Nodup :=
  ⟨by decide, by decide, (cache_invariant [(3, 4), (0, 0), (3, 4)] (by decide)).1⟩

/-- C5: in every state a wrapper reaches from `sum2()` by calls on safe integers with safe
sums, a call with such a pair `(a, b)` whose key is absent appends the one property
`key a b ↦ a + b` and leaves every other read as it was, and a call whose key is present
leaves `obj` as it was. -/
theorem call_frame (calls : List (Int × Int)) (a b : Int)
    (_hcalls : ∀ p ∈ calls, SafeCall p) (_hab : SafeCall (a, b)) :
    ((sum2.run calls).obj.get (key a b) = none →
      ((sum2.run calls).call a b).2.obj = (sum2.run calls).obj ++ [(key a b, a + b)] ∧
      ((sum2.run calls).call a b).2.obj.get (key a b) = some (a + b) ∧
      ∀ k, k ≠ key a b →
        ((sum2.run calls).call a b).2.obj.get k = (sum2.run calls).obj.get k) ∧
    ((sum2.run calls).obj.get (key a b) ≠ none →
      ((sum2.run calls).call a b).2.obj = (sum2.run calls).obj) := by
  constructor
  · intro h
    have hent : (sum2.run calls).entersIf a b = true := by simp [Memo.entersIf, h, truthy]
    refine ⟨(Memo.next_obj_of_absent h).1, get_next_self calls a b, ?_⟩
    intro k hk
    simp [Memo.call, Memo.next, hent, Obj.get_set_ne _ _ hk]
  · intro h
    exact next_obj_of_present h

theorem call_frame_miss_then_hit :
    (∀ p ∈ [((3 : Int), (4 : Int))], SafeCall p) ∧ SafeCall (4, 3) ∧ SafeCall (3, 4) ∧
      ((sum2.run [(3, 4)]).call 4 3).2.obj = [(key 3 4, 7), (key 4 3, 7)] ∧
      ((sum2.run [(3, 4)]).call 3 4).2.obj = [(key 3 4, 7)] :=
  ⟨by decide, by decide, by decide,
    ((call_frame [(3, 4)] 4 3 (by decide) (by decide)).1 (by decide)).1,
    (call_frame [(3, 4)] 3 4 (by decide) (by decide)).2 (by decide)⟩

/-- C6: on the fresh wrapper `memoizedSum`, for every `n ≥ 1`, `n` consecutive calls with
`(3, 4)` each return `7`; the first enters the `if`, no later one does, and after any number
`k ≥ 1` of them one addition has been performed; a following call with `(4, 3)`, whose key is
another one and absent, returns `7` and performs the second addition. -/
theorem scenario_three_four (n : Nat) (hn : 1 ≤ n) :
    memoizedSum.outputs (List.replicate n (3, 4)) = List.replicate n (some 7) ∧
    memoizedSum.entersIf 3 4 = true ∧
    (∀ k, 1 ≤ k → (memoizedSum.run (List.replicate k (3, 4))).entersIf 3 4 = false ∧
      (memoizedSum.run (List.replicate k (3, 4))).insideIf = 1) ∧
    key 4 3 ≠ key 3 4 ∧
    (memoizedSum.run (List.replicate n (3, 4))).obj.get (key 4 3) = none ∧
    ((memoizedSum.run (List.replicate n (3, 4))).call 4 3).1 = some 7 ∧
    ((memoizedSum.run (List.replicate n (3, 4))).call 4 3).2.insideIf = 2 := by
  have hfirst : memoizedSum.next 3 4 = Memo.mk [(key 3 4, 7)] 1 := by decide
  have hcall : (memoizedSum.call 3 4).1 = some 7 := by decide
  have hrun : ∀ k, 1 ≤ k →
      memoizedSum.run (List.replicate k (3, 4)) = Memo.mk [(key 3 4, 7)] 1 := by
    intro k hk
    obtain ⟨j, rfl⟩ : ∃ j, k = j + 1 := ⟨k - 1, by omega⟩
    simp only [List.replicate_succ, Memo.run, hfirst, (run_three_four j).1]
  obtain ⟨j, rfl⟩ : ∃ j, n = j + 1 := ⟨n - 1, by omega⟩
  refine ⟨?_, by decide, ?_, by decide, ?_, ?_, ?_⟩
  · simp only [List.replicate_succ, Memo.outputs, hfirst, hcall, (run_three_four j).2]
  · intro k hk
    rw [hrun k hk]
    decide
  · rw [hrun _ hn]; decide
  · rw [hrun _ hn]; decide
  · rw [hrun _ hn]; decide

theorem scenario_three_four_twice :
    1 ≤ 2 ∧ memoizedSum.outputs [(3, 4), (3, 4)] = [some 7, some 7] ∧
      ((memoizedSum.run [(3, 4), (3, 4)]).call 4 3).2.insideIf = 2 :=
  ⟨by decide, (scenario_three_four 2 (by decide)).1,
    (scenario_three_four 2 (by decide)).2.2.2.2.2.2⟩

/-- C9: in every state a wrapper reaches from `sum2()`, a call with `(a, b)` enters the `if`
and performs the addition exactly when the key is absent or the value stored under it is `0`;
the stored value is `0` exactly when the key is present and `a + b = 0`; the count of
additions grows by one when the call enters the `if` and not at all otherwise. -/
theorem entersIf_iff (calls : List (Int × Int)) (a b : Int) :
    ((sum2.run calls).entersIf a b = true ↔
      (sum2.run calls).obj.get (key a b) = none ∨
        (sum2.run calls).obj.get (key a b) = some 0) ∧
    ((sum2.run calls).obj.get (key a b) = some 0 ↔
      (sum2.run calls).obj.get (key a b) ≠ none ∧ a + b = 0) ∧
    ((sum2.run calls).call a b).2.insideIf =
      (sum2.run calls).insideIf + (if (sum2.run calls).entersIf a b then 1 else 0) := by
  refine ⟨?_, ?_, ?_⟩
  · rw [← truthy_eq_false_iff]
    simp [Memo.entersIf]
  · constructor
    · intro h
      exact ⟨by simp [h], (get_run_sum2 h).symm⟩
    · rintro ⟨h, h0⟩
      obtain ⟨v, hv⟩ := Option.ne_none_iff_exists'.1 h
      rw [hv, get_run_sum2 hv, h0]
  · simp only [Memo.call, Memo.next]
    split <;> simp

/-! ### The claims on the todo slice -/

theorem strictEq_iff (x y : JsVal) : strictEq x y = true ↔ x = y := by
  cases x <;> cases y <;> simp [strictEq]

theorem strictNe_iff (x y : JsVal) : strictNe x y = true ↔ x ≠ y := by
  simp [strictNe, ← strictEq_iff]

theorem arrayFilter_eq_filter {α : Type} (callback : α → Bool) (xs : List α) :
    arrayFilter callback xs = xs.filter callback := by
  induction xs with
  | nil => rfl
  | cons x rest ih =>
    by_cases h : callback x = true
    · simp [arrayFilter, List.filter, h, ih]
    · simp [arrayFilter, List.filter, h, ih]

/-- C7: `removeTodo` leaves as `todos` the sub-list, in the original order, of the records
whose `id` is not strictly equal to the payload; the state has no other part; when no record
has that `id` the state is unchanged; on the initial state the payload `1` removes the record
and the payload `"1"`, a string, removes nothing. -/
theorem removeTodo_spec (state : TodoState) (action : Action) :
    (removeTodo state action).todos =
      state.todos.filter (fun todo => decide (todo.id ≠ action.payload)) ∧
    removeTodo state action =
      { todos := state.todos.filter (fun todo => decide (todo.id ≠ action.payload)) } ∧
    (removeTodo state action).todos.Sublist state.todos ∧
    (∀ todo, todo ∈ (removeTodo state action).todos ↔
      todo ∈ state.todos ∧ todo.id ≠ action.payload) ∧
    ((∀ todo ∈ state.todos, todo.id ≠ action.payload) → removeTodo state action = state) ∧
    removeTodo initialState { payload := .number 1 } = { todos := [] } ∧
    removeTodo initialState { payload := .string "1" } = initialState := by
  have hfun : (fun todo : Todo => strictNe todo.id action.payload) =
      fun todo => decide (todo.id ≠ action.payload) := by
    funext todo
    rw [Bool.eq_iff_iff, strictNe_iff]
    simp
  have hlist : (removeTodo state action).todos =
      state.todos.filter (fun todo => decide (todo.id ≠ action.payload)) := by
    simp only [removeTodo, arrayFilter_eq_filter, hfun]
  refine ⟨hlist, ?_, ?_, ?_, ?_, by decide, by decide⟩
  · simp only [removeTodo, arrayFilter_eq_filter, hfun]
  · rw [hlist]; exact List.filter_sublist _
  · intro todo
    rw [hlist]
    simp [List.mem_filter]
  · intro h
    have : (removeTodo state action).todos = state.todos := by
      rw [hlist, List.filter_eq_self]
      intro todo hmem
      simpa using h todo hmem
    cases state
    simp only [removeTodo] at this ⊢
    rw [this]

/-- C8: `addTodo` leaves as `todos` the previous list followed by the one record whose `text`
is the payload and whose `id` is the generated string: one record more, every earlier record
at its index; from the initial state, `addTodo("x")` gives two records, the first of them
`{id: 1, text: "Hello World"}`. -/
theorem addTodo_spec (nanoid : String) (state : TodoState) (action : Action) :
    (addTodo nanoid state action).todos =
      state.todos ++ [{ id := .string nanoid, text := action.payload }] ∧
    addTodo nanoid state action =
      { todos := state.todos ++ [{ id := .string nanoid, text := action.payload }] } ∧
    (addTodo nanoid state action).todos.length = state.todos.length + 1 ∧
    (∀ i, i < state.todos.length →
      (addTodo nanoid state action).todos.get? i = state.todos.get? i) ∧
    (addTodo nanoid state action).todos.get? state.todos.length =
      some { id := .string nanoid, text := action.payload } ∧
    (addTodo nanoid initialState { payload := .string "x" }).todos =
      [{ id := .number 1, text := .string "Hello World" },
        { id := .string nanoid, text := .string "x" }] := by
  refine ⟨rfl, rfl, ?_, ?_, ?_, rfl⟩
  · simp [addTodo, arrayPush]
  · intro i hi
    simp [addTodo, arrayPush, List.getElem?_append_left hi]
  · simp [addTodo, arrayPush]

/-! ### The claim on the theme context -/

/-- Whatever the theme, `ThemedComponent` renders its text in black. -/
theorem themedComponent_black (s : ThemingState) : ThemedComponent s = "black" := by
  simp [ThemedComponent, strictEqString]

/-- C10, at the failing input: one click on the toggle takes the initial theme `'light'` to
`'dark'`, the provider hands `'dark'` on in its value, and `ThemedComponent` renders its
text in black. -/
theorem themed_colour_after_toggle :
    (ThemeToggle.onClick ThemingState.initial).theme = "dark" ∧
      (useContext (ThemeToggle.onClick ThemingState.initial)).theme = "dark" ∧
      ThemedComponent (ThemeToggle.onClick ThemingState.initial) = "black" := by
  decide

end ReactWithAT
